import Mathlib

/-!
Shallow embedding of `src/suffixarray.js` (tixxit/suffixarray): the stable
radix sort `bsort` and the Kärkkäinen–Sanders DC3 construction `_suffixArray`,
together with the public entry point `suffixArray`.

JavaScript numbers are embedded as `Nat`.  In `bsort` the 32-bit coercion
performed by the JS shift and mask operators (`>>`, `&`) is made explicit as
`% 2^32`.  The two index computations `((i * 3) >> 1) + 1` and
`(alen + 1) >> 1` are rendered as unbounded `Nat` shifts; `toInt32` and
`s12EntryJS` model the same computations with the ToInt32 coercion of `>>`,
and `s12EntryJS_eq_of_small` proves the two renderings equal exactly while
the shift operand stays below `2^31`.  Claims whose statements range over the
length are therefore restricted to that regime (`len ≤ 2^30 + 1`); beyond it
the JS writes a wrapped negative sample entry, which a `Nat` index list
cannot represent (see `s12_wrap_cex` and `wrapper_negative_miss_cex`).
-/

namespace SA

/-! ### bsort (src/suffixarray.js lines 50-70) -/

/-- JS `(key(x) >> d) & 15`.  `>>` coerces its operand with ToInt32; for the
digit positions used here (`d ≤ 28`) the arithmetic shift followed by `& 15`
extracts bits `d..d+3` of the low 32 bits of the key, i.e. of `k % 2^32`. -/
def digit (k d : Nat) : Nat := ((k % 2 ^ 32) >>> d) &&& 15

/-- JS `bits = j >> 24 && 32 || j >> 16 && 24 || j >> 8 && 16 || 8` where `j`
is the maximum key: the number of key bits a pass family must cover.  As with
`digit`, `j >> t ≠ 0` is `(j % 2^32) >>> t ≠ 0` for `t ∈ {8,16,24}`. -/
def bitsFor (m : Nat) : Nat :=
  if (m % 2 ^ 32) >>> 24 ≠ 0 then 32
  else if (m % 2 ^ 32) >>> 16 ≠ 0 then 24
  else if (m % 2 ^ 32) >>> 8 ≠ 0 then 16
  else 8

/-- JS `while (i--) j = Math.max(key(a[i]), j)` with `j` initialised to `-1`:
the maximum key of the list.  (We initialise with `0` instead of `-1`; for a
non-empty list of `Nat` keys the result is the same, and on the empty list the
only difference is the number of passes made over an empty array.) -/
def maxKey (key : α → Nat) (a : List α) : Nat :=
  a.foldr (fun x acc => max (key x) acc) 0

/-- One pass of the radix sort at digit position `d`: distribute into 16
buckets (`for (i = len; i--;) buckets[(key(a[i]) >> d) & 15].push(a[i])`),
then concatenate the buckets draining each from the back
(`for (b = 0; ...) for (j = buckets[b].length; j--;) a[++i] = buckets[b][j]`).
Filling back-to-front and draining back-to-front leaves each bucket's items in
their original relative order, so the pass lists the items of bucket `0` in list
order, then those of bucket `1`, and so on. -/
def bucketPass (key : α → Nat) (d : Nat) (a : List α) : List α :=
  (List.range 16).flatMap (fun v => a.filter (fun x => digit (key x) d = v))

/-- JS `bsort(a, key)`: LSD radix sort with 4-bit digits,
`for (; d < bits; d += 4)`. -/
def bsort (key : α → Nat) (a : List α) : List α :=
  (List.range (bitsFor (maxKey key a) / 4)).foldl
    (fun l p => bucketPass key (4 * p) l) a

/-! ### _suffixArray (src/suffixarray.js lines 115-195) -/

/-- The initial S12 index list,
JS `while (i--) a[i] = ((i * 3) >> 1) + 1`: `a = [1, 2, 4, 5, 7, 8, ...]`.
(Rendered with an unbounded `Nat` shift: faithful to the JS exactly while
`i * 3 < 2^31` — see `s12EntryJS_eq_of_small`; beyond that boundary the JS
ToInt32 coercion makes the entry negative, see `s12_wrap_cex`.) -/
def s12Init (alen : Nat) : List Nat :=
  (List.range alen).map (fun i => ((i * 3) >>> 1) + 1)

/-- The triplet sort,
JS `for (i = 3; i--;) bsort(a, function(j) { return s(i + j) })`: three stable
radix sorts keyed by `s(2 + j)`, then `s(1 + j)`, then `s(0 + j)`. -/
def tripletSort (s : Nat → Nat) (a : List Nat) : List Nat :=
  bsort (fun j => s (0 + j)) (bsort (fun j => s (1 + j)) (bsort (fun j => s (2 + j)) a))

/-- Slot of S12 index `i` in the rank array `b`:
JS `floor(a[i] / 3) + (a[i] % 3 == 1 ? 0 : r)`. -/
def posOf (r i : Nat) : Nat := i / 3 + (if i % 3 = 1 then 0 else r)

/-- JS `b[i] < r ? b[i] * 3 + 1 : (b[i] - r) * 3 + 2`: translate a reduced
position back to the original S12 index. -/
def decodeS12 (r t : Nat) : Nat := if t < r then t * 3 + 1 else (t - r) * 3 + 2

/-- JS `s(a[i]) != s(a[i-1]) || s(a[i]+1) != s(a[i-1]+1) || s(a[i]+2) != s(a[i-1]+2)`:
the 3-symbol tuples at `x` and `y` differ. -/
def tripleNe (s : Nat → Nat) (x y : Nat) : Bool :=
  (s x != s y) || (s (x + 1) != s (y + 1)) || (s (x + 2) != s (y + 2))

/-- The rank-assignment walk over the triplet-sorted S12 list (JS
`for (i = 1; i < alen; i++) { if (...) j++; b[...] = j }`), carrying the
previous index, the running rank `j` and the array `b`; returns the final `b`
and the maximum assigned rank `j`. -/
def writeRanks (s : Nat → Nat) (r : Nat) :
    List Nat → Nat → Nat → List Nat → List Nat × Nat
  | [], _, j, b => (b, j)
  | p :: rest, prev, j, b =>
      let j' := if tripleNe s p prev then j + 1 else j
      writeRanks s r rest p j' (b.set (posOf r p) j')

/-- JS `j = b[floor(a[0]/3) + (a[0] % 3 == 1 ? 0 : r)] = 0` followed by the
walk: build the rank array (length `alen`) and the maximum rank.  When
`alen = 0` the JS write lands at array property `NaN` (invisible to all later
integer-index reads) and `j` is `0`. -/
def rankArray (s : Nat → Nat) (r alen : Nat) : List Nat → List Nat × Nat
  | [] => (List.replicate alen 0, 0)
  | p :: rest => writeRanks s r rest p 0 ((List.replicate alen 0).set (posOf r p) 0)

/-- The reverse lookup table `while (i--) lookup[a[i]] = i` read at key `v`:
the writes run `i = alen-1` down to `0`, so on duplicate values the final
entry is the first occurrence; a key never written reads as JS `undefined`,
here `none`. -/
def lookupIn : List Nat → Nat → Nat → Option Nat
  | [], _, _ => none
  | x :: xs, i, v => if x = v then some i else lookupIn xs (i + 1) v

/-- The merge comparison, JS
`tmp = (s(a[i]) - s(b[j])) || (a[i] % 3 == 2 ? (s(a[i]+1) - s(b[j]+1)) || (lookup[a[i]+2] - lookup[b[j]+2]) : (lookup[a[i]+1] - lookup[b[j]+1]))`
followed by `tmp < 0`.  A JS `||` falls through on `0`; arithmetic on an
`undefined` lookup entry yields `NaN`, and `NaN < 0` is `false`. -/
def mergeLt (s : Nat → Nat) (lk : Nat → Option Nat) (x y : Nat) : Bool :=
  if s x ≠ s y then s x < s y
  else if x % 3 = 2 then
    if s (x + 1) ≠ s (y + 1) then s (x + 1) < s (y + 1)
    else
      match lk (x + 2), lk (y + 2) with
      | some u, some v => u < v
      | _, _ => false
  else
    match lk (x + 1), lk (y + 1) with
    | some u, some v => u < v
    | _, _ => false

/-- Inner stage of the two-pointer merge: the front element `x` of the first
run (with tail `xs`) walks along the second run; `rest` continues the merge
once `x` has been emitted.  (The merge is split in two structural recursions
so that it evaluates by kernel reduction.) -/
def insMerge (lt : Nat → Nat → Bool) (x : Nat) (xs : List Nat)
    (rest : List Nat → List Nat) : List Nat → List Nat
  | [] => x :: xs
  | y :: ys => if lt x y then x :: rest (y :: ys) else y :: insMerge lt x xs rest ys

/-- The two-pointer merge loop
`result[k++] = tmp < 0 ? a[i++] : b[j++]` plus the two drain loops. -/
def mergeSA (lt : Nat → Nat → Bool) : List Nat → List Nat → List Nat
  | [], ys => ys
  | x :: xs, ys => insMerge lt x xs (mergeSA lt xs) ys

/-- JS `_suffixArray(s, len)` (src/suffixarray.js lines 115-195).  `a0` is the
initial S12 index list `a[i] = ((i*3) >> 1) + 1`; `a3` its three radix sorts
keyed by `s(i + j)` for `i = 2, 1, 0`; the recursion is guarded by
`j < alen - 1` (for `alen = 0` the JS guard compares `0 < -1`, false, as is
the `Nat` guard `0 < 0`); `b0` is the S0 sample
(`if (a[i] % 3 == 1) b.push(a[i] - 1)` plus the `len % 3 == 1` boundary
push of `len - 1`).  The count `r := (alen + 1) >> 1` is likewise rendered
as an unbounded `Nat` shift, faithful while `alen + 1 < 2^31` (covered by the
same `len ≤ 2^30 + 1` regime as `s12Init`). -/
def _suffixArray (s : Nat → Nat) (len : Nat) : List Nat :=
  let alen := 2 * len / 3
  let r := (alen + 1) >>> 1
  let a3 := tripletSort s (s12Init alen)
  let bj := rankArray s r alen a3
  let a4 :=
    if h : bj.2 < alen - 1 then
      let b' := _suffixArray (fun i => if i ≥ alen then 0 else bj.1.getD i 0) alen
      b'.map (fun t => decodeS12 r t)
    else a3
  let b0 := (a4.filter (fun x => x % 3 = 1)).map (fun x => x - 1) ++
            (if len % 3 = 1 then [len - 1] else [])
  mergeSA (mergeLt s (lookupIn a4 0)) a4 (bsort (fun j => s j) b0)
  termination_by len
  decreasing_by
    have h2 : 2 ≤ 2 * len / 3 := by omega
    have h3 : 3 ≤ len := by
      by_contra hc
      interval_cases len <;> simp_all
    calc 2 * len / 3 < len := by
          rw [Nat.div_lt_iff_lt_mul (by norm_num)]
          omega

/-- The maximum lexicographical name `j` assigned by the rank-assignment walk
of `_suffixArray s len` (the value tested by the recursion guard
`if (j < alen - 1)`). -/
def maxRank (s : Nat → Nat) (len : Nat) : Nat :=
  (rankArray s ((2 * len / 3 + 1) >>> 1) (2 * len / 3)
    (tripletSort s (s12Init (2 * len / 3)))).2

/-- The number of nested recursive invocations performed by
`_suffixArray s len`: the body of `_suffixArray` contains a single recursive
call site, guarded by `j < alen - 1`, so each call recurses at most once and
`recDepth` (defined by the identical guard and arguments) counts the chain of
recursive calls. -/
def recDepth (s : Nat → Nat) (len : Nat) : Nat :=
  let alen := 2 * len / 3
  let r := (alen + 1) >>> 1
  let bj := rankArray s r alen (tripletSort s (s12Init alen))
  if h : bj.2 < alen - 1 then
    recDepth (fun i => if i ≥ alen then 0 else bj.1.getD i 0) alen + 1
  else 0
  termination_by len
  decreasing_by
    have h2 : 2 ≤ 2 * len / 3 := by omega
    rw [Nat.div_lt_iff_lt_mul (by norm_num)]
    omega

/-- The public wrapper around the accessor,
JS `function(i) { return i >= len ? 0 : s(i) }` (src/suffixarray.js line 92). -/
def minWrap (s : Nat → Nat) (len : Nat) : Nat → Nat :=
  fun i => if i ≥ len then 0 else s i

/-- Entry `suffixArray(s, len)` on a function input (src/suffixarray.js lines 89-93). -/
def suffixArrayFn (s : Nat → Nat) (len : Nat) : List Nat :=
  _suffixArray (minWrap s len) len

/-- The string accessor `function(i) { return s.charCodeAt(i) }`; the string
is embedded as its list of code units.  (It is only ever consulted at indices
below the wrapped length.) -/
def strAt (s : List Nat) : Nat → Nat := fun i => s.getD i 0

/-- Entry `suffixArray(s, len)` on a string input: JS `len || s.length` falls back
to the character count when `len` is `0` (or absent). -/
def suffixArrayStr (s : List Nat) (len : Nat) : List Nat :=
  suffixArrayFn (strAt s) (if len = 0 then s.length else len)

/-- Modelled from the spec: the optional termination-policy argument of the
public entry point (`"min"` or `"wrap"`, spec §3/§6 and README.md).  The
policy-dispatch code is not part of `src/suffixarray.js` in this snapshot
(its entry point always applies the min wrapper); only the min/wrap wrappers'
semantics are documented, so the parameter is modelled here. -/
inductive TermPolicy where
  | min : TermPolicy
  | wrap : TermPolicy

/-- Modelled from the spec: the wrap-policy accessor — "any index i ≥ N is
remapped to i mod N before lookup, i.e. the sequence is treated as circular
with no terminator" (spec §3). -/
def wrapAcc (s : List Nat) : Nat → Nat :=
  fun i => strAt s (i % s.length)

/-- Modelled from the spec: `suffixArray(string, policy)` — a string input
with a termination-policy argument; `"min"` (the default) uses the wrapper `minWrap` of the source, `"wrap"` uses the circular accessor; the length is the
character count (spec §6).  The construction itself is the source's
`_suffixArray`. -/
def suffixArrayPol (s : List Nat) (p : TermPolicy) : List Nat :=
  match p with
  | .min => _suffixArray (minWrap (strAt s) s.length) s.length
  | .wrap => _suffixArray (wrapAcc s) s.length

/-- The spec-side 0-extension of a string: "comparison reads symbols one by
one and treats every index ≥ len as the sentinel symbol 0". -/
def extend (s : List Nat) (i : Nat) : Nat :=
  if i < s.length then s.getD i 0 else 0

/-- The spec-side suffix comparison: the suffix starting at `a` is strictly
lexicographically below the suffix starting at `b`, comparing the 0-extended
symbol sequences position by position.  `fuel = s.length + 1` decides the
comparison exactly for distinct suffixes of a string whose real symbols are
all nonzero (one of the two reaches the sentinel region within that many
steps, and strictly first). -/
def sufLt (s : List Nat) : Nat → Nat → Nat → Bool
  | 0, _, _ => false
  | fuel + 1, a, b =>
      if extend s a ≠ extend s b then decide (extend s a < extend s b)
      else sufLt s fuel (a + 1) (b + 1)

/-- The first loop of `_suffixArray`, `i = alen; while (i--) ...`, reduced to
its loop counter: the guard `i--` is falsy exactly when `i = 0`, and each
test decrements `i`.  `whileDecExits i fuel` is `true` iff the loop started
at counter value `i` exits within `fuel` tests.  (`i : Int` because a
negative `len` makes `alen = Math.floor(2 * len / 3)` negative.) -/
def whileDecExits : Int → Nat → Bool
  | _, 0 => false
  | i, fuel + 1 => if i = 0 then true else whileDecExits (i - 1) fuel

/-- ToInt32: the coercion JS applies to the operands of `>>` — the low 32
bits of the number, interpreted as a signed 32-bit integer. -/
def toInt32 (n : Nat) : Int :=
  if n % 2 ^ 32 < 2 ^ 31 then (n % 2 ^ 32 : Nat) else (n % 2 ^ 32 : Nat) - 2 ^ 32

/-- The sample entry `((i * 3) >> 1) + 1` of `_suffixArray`, computed
faithfully to JS: ToInt32 of `i * 3`, then the arithmetic shift `>> 1`
(floor division by 2 of the signed 32-bit value), then `+ 1`. -/
def s12EntryJS (i : Nat) : Int :=
  toInt32 (i * 3) / 2 + 1

/-- The interception test of the entry wrapper
`function(i) { return i >= len ? 0 : s(i) }`, over JS numbers: a read at `i`
is answered `0` without consulting the function supplied by the caller
exactly when `i >= len`; a negative `i` fails the test and passes through. -/
def minWrapIntercepts (len i : Int) : Bool := decide (i ≥ len)

end SA


namespace SA

open List

/-! ### Radix sort: permutation, sortedness, stability -/

theorem digit_lt_16 (k d : Nat) : digit k d < 16 :=
  Nat.lt_succ_of_le Nat.and_le_right

/-- The buckets for digit values `< n` and `= n`, concatenated, are a
permutation of the bucket for digit values `< n + 1`. -/
theorem filter_lt_append_eq_perm (f : α → Nat) (n : Nat) (a : List α) :
    a.filter (fun x => f x < n) ++ a.filter (fun x => f x = n) ~
      a.filter (fun x => f x < n + 1) := by
  induction a with
  | nil => simp
  | cons x xs ih =>
    simp only [List.filter_cons, decide_eq_true_eq]
    by_cases h1 : f x < n
    · have h2 : ¬ f x = n := by omega
      have h3 : f x < n + 1 := by omega
      rw [if_pos h1, if_neg h2, if_pos h3]
      simpa only [List.cons_append] using ih.cons x
    · by_cases h2 : f x = n
      · have h3 : f x < n + 1 := by omega
        rw [if_neg h1, if_pos h2, if_pos h3]
        exact List.perm_middle.trans (ih.cons x)
      · have h3 : ¬ f x < n + 1 := by omega
        rw [if_neg h1, if_neg h2, if_neg h3]
        exact ih

/-- Collecting the buckets for digit values `0, ..., n-1` in order is a
permutation of the sublist of items whose digit is `< n`. -/
theorem bucketsUpTo_perm (f : α → Nat) (a : List α) :
    ∀ n, ((List.range n).flatMap fun v => a.filter fun x => f x = v) ~
      a.filter (fun x => f x < n)
  | 0 => by simp
  | n + 1 => by
    rw [List.range_succ, List.flatMap_append]
    simp only [List.flatMap_cons, List.flatMap_nil, List.append_nil]
    exact ((bucketsUpTo_perm f a n).append_right _).trans
      (filter_lt_append_eq_perm f n a)

/-- A bucket pass permutes its input. -/
theorem bucketPass_perm (key : α → Nat) (d : Nat) (a : List α) :
    bucketPass key d a ~ a := by
  have h := bucketsUpTo_perm (fun x => digit (key x) d) a 16
  have he : a.filter (fun x => digit (key x) d < 16) = a :=
    List.filter_eq_self.mpr fun x _ => by
      simp only [decide_eq_true_eq]; exact digit_lt_16 _ _
  rw [he] at h
  exact h

/-- Concatenating the buckets sorts by digit and, within a digit, keeps any
relation that held pairwise before the pass (stability, relational form). -/
theorem bucketsUpTo_pairwise (f : α → Nat) (R : α → α → Prop) (a : List α)
    (h : a.Pairwise R) :
    ∀ n, ((List.range n).flatMap fun v => a.filter fun x => f x = v).Pairwise
      (fun x y => f x < f y ∨ (f x = f y ∧ R x y))
  | 0 => by simp
  | n + 1 => by
    rw [List.range_succ, List.flatMap_append]
    simp only [List.flatMap_cons, List.flatMap_nil, List.append_nil]
    rw [List.pairwise_append]
    refine ⟨bucketsUpTo_pairwise f R a h n, ?_, ?_⟩
    · have hp : (a.filter fun x => f x = n).Pairwise R := h.filter _
      refine hp.imp_of_mem ?_
      intro x y hx hy hr
      have hfx : f x = n := by simpa using List.of_mem_filter hx
      have hfy : f y = n := by simpa using List.of_mem_filter hy
      exact Or.inr ⟨by omega, hr⟩
    · intro x hx y hy
      rcases List.mem_flatMap.mp hx with ⟨v, hv, hxf⟩
      have hfx : f x = v := by simpa using List.of_mem_filter hxf
      have hfy : f y = n := by simpa using List.of_mem_filter hy
      have hv' : v < n := List.mem_range.mp hv
      exact Or.inl (by omega)

theorem bucketPass_pairwise (key : α → Nat) (d : Nat) (R : α → α → Prop)
    (a : List α) (h : a.Pairwise R) :
    (bucketPass key d a).Pairwise (fun x y =>
      digit (key x) d < digit (key y) d ∨
        (digit (key x) d = digit (key y) d ∧ R x y)) :=
  bucketsUpTo_pairwise (fun x => digit (key x) d) R a h 16

/-- The digit `digit k d` is the block of bits `d..d+3` of `k % 2^32`:
`(k % 2^32) % 2^(d+4) = digit k d * 2^d + (k % 2^32) % 2^d`. -/
theorem digit_decomp (k d : Nat) :
    (k % 2 ^ 32) % 2 ^ (d + 4) = digit k d * 2 ^ d + (k % 2 ^ 32) % 2 ^ d := by
  have h15 : ∀ m : Nat, m &&& 15 = m % 16 := by
    intro m
    have h : (15 : Nat) = 2 ^ 4 - 1 := by norm_num
    rw [h, Nat.and_pow_two_sub_one_eq_mod]
  have hdig : digit k d = (k % 2 ^ 32) % 2 ^ (d + 4) / 2 ^ d := by
    rw [digit, Nat.shiftRight_eq_div_pow, h15, pow_add]
    exact (Nat.mod_mul_right_div_self (k % 2 ^ 32) (2 ^ d) (2 ^ 4)).symm
  have hmod : (k % 2 ^ 32) % 2 ^ (d + 4) % 2 ^ d = (k % 2 ^ 32) % 2 ^ d := by
    apply Nat.mod_mod_of_dvd
    exact pow_dvd_pow 2 (by omega)
  calc (k % 2 ^ 32) % 2 ^ (d + 4)
      = 2 ^ d * ((k % 2 ^ 32) % 2 ^ (d + 4) / 2 ^ d)
          + (k % 2 ^ 32) % 2 ^ (d + 4) % 2 ^ d := (Nat.div_add_mod _ _).symm
    _ = digit k d * 2 ^ d + (k % 2 ^ 32) % 2 ^ d := by rw [← hdig, hmod]; ring

/-- One pass at digit position `d` refines the pairwise invariant from the
low `d` bits to the low `d + 4` bits. -/
theorem bucketPass_invariant (key : α → Nat) (d : Nat) (R : α → α → Prop)
    (a : List α)
    (h : a.Pairwise (fun x y =>
      (key x % 2 ^ 32) % 2 ^ d < (key y % 2 ^ 32) % 2 ^ d ∨
        ((key x % 2 ^ 32) % 2 ^ d = (key y % 2 ^ 32) % 2 ^ d ∧ R x y))) :
    (bucketPass key d a).Pairwise (fun x y =>
      (key x % 2 ^ 32) % 2 ^ (d + 4) < (key y % 2 ^ 32) % 2 ^ (d + 4) ∨
        ((key x % 2 ^ 32) % 2 ^ (d + 4) = (key y % 2 ^ 32) % 2 ^ (d + 4) ∧
          R x y)) := by
  refine (bucketPass_pairwise key d _ a h).imp ?_
  intro x y hxy
  have dx := digit_decomp (key x) d
  have dy := digit_decomp (key y) d
  have hrx : (key x % 2 ^ 32) % 2 ^ d < 2 ^ d := Nat.mod_lt _ (Nat.pos_pow_of_pos d (by norm_num))
  have hry : (key y % 2 ^ 32) % 2 ^ d < 2 ^ d := Nat.mod_lt _ (Nat.pos_pow_of_pos d (by norm_num))
  rcases hxy with hlt | ⟨heq, hR⟩
  · left
    rw [dx, dy]
    calc digit (key x) d * 2 ^ d + (key x % 2 ^ 32) % 2 ^ d
        < (digit (key x) d + 1) * 2 ^ d := by
          rw [Nat.add_mul, Nat.one_mul]
          exact Nat.add_lt_add_left hrx _
      _ ≤ digit (key y) d * 2 ^ d := Nat.mul_le_mul_right _ hlt
      _ ≤ digit (key y) d * 2 ^ d + (key y % 2 ^ 32) % 2 ^ d := Nat.le_add_right _ _
  · rcases hR with hlt' | ⟨heq', hR'⟩
    · left
      rw [dx, dy, heq]
      exact Nat.add_lt_add_left hlt' _
    · right
      rw [dx, dy, heq, heq']
      exact ⟨rfl, hR'⟩

/-! ### Stability of a bucket pass -/

theorem filter_flatMap_comm (l : List β) (g : β → List α) (p : α → Bool) :
    (l.flatMap g).filter p = l.flatMap (fun v => (g v).filter p) := by
  induction l with
  | nil => rfl
  | cons x xs ih => simp [List.filter_append, ih]

/-- Bucketing a list whose elements all carry the same digit `c` is the
identity (the list lands in bucket `c` whole) — provided `c` is in range;
otherwise it vanishes. -/
theorem bucketize_const (f : α → Nat) (c : Nat) (L : List α)
    (hL : ∀ x ∈ L, f x = c) (n : Nat) :
    ((List.range n).flatMap fun v => L.filter fun x => f x = v)
      = if c < n then L else [] := by
  induction n with
  | zero => simp
  | succ n ih =>
    rw [List.range_succ, List.flatMap_append]
    simp only [List.flatMap_cons, List.flatMap_nil, List.append_nil]
    rw [ih]
    by_cases hc : c < n
    · have h1 : c < n + 1 := by omega
      rw [if_pos hc, if_pos h1]
      have h2 : (L.filter fun x => f x = n) = [] := by
        rw [List.filter_eq_nil_iff]
        intro x hx
        have := hL x hx
        simp only [decide_eq_true_eq]
        omega
      rw [h2, List.append_nil]
    · by_cases hc2 : c = n
      · rw [if_neg hc, if_pos (by omega : c < n + 1)]
        have h2 : (L.filter fun x => f x = n) = L := by
          rw [List.filter_eq_self]
          intro x hx
          have := hL x hx
          simp only [decide_eq_true_eq]
          omega
        rw [h2, List.nil_append]
      · rw [if_neg hc, if_neg (by omega : ¬ c < n + 1)]
        have h2 : (L.filter fun x => f x = n) = [] := by
          rw [List.filter_eq_nil_iff]
          intro x hx
          have := hL x hx
          simp only [decide_eq_true_eq]
          omega
        rw [h2, List.append_nil]

/-- A bucket pass does not reorder any class of items sharing a single digit
value: stability of one pass. -/
theorem bucketPass_filter_const (key : α → Nat) (d : Nat) (p : α → Bool)
    (a : List α) (c : Nat) (hc : ∀ x, p x = true → digit (key x) d = c) :
    (bucketPass key d a).filter p = a.filter p := by
  rw [bucketPass, filter_flatMap_comm]
  have hcomm : ∀ v : Nat, (a.filter fun x => digit (key x) d = v).filter p
      = (a.filter p).filter fun x => digit (key x) d = v := by
    intro v
    rw [List.filter_filter, List.filter_filter]
    exact List.filter_congr fun x _ => by rw [Bool.and_comm]
  simp only [hcomm]
  rw [bucketize_const (fun x => digit (key x) d) c (a.filter p)
    (fun x hx => hc x (List.of_mem_filter hx))]
  by_cases h16 : c < 16
  · rw [if_pos h16]
  · rw [if_neg h16]
    cases hL : a.filter p with
    | nil => rfl
    | cons y ys =>
      exfalso
      have hy : y ∈ a.filter p := by rw [hL]; exact List.mem_cons_self y ys
      have h1 := hc y (List.of_mem_filter hy)
      have h2 := digit_lt_16 (key y) d
      omega

/-! ### The pass family of bsort -/

theorem passes_perm (key : α → Nat) (a : List α) :
    ∀ n, ((List.range n).foldl (fun l q => bucketPass key (4 * q) l) a) ~ a
  | 0 => by simp
  | n + 1 => by
    rw [List.range_succ, List.foldl_append]
    simp only [List.foldl_cons, List.foldl_nil]
    exact (bucketPass_perm key (4 * n) _).trans (passes_perm key a n)

theorem passes_filter (key : α → Nat) (p : α → Bool) (c : Nat)
    (hc : ∀ x, p x = true → key x = c) (a : List α) :
    ∀ n, ((List.range n).foldl (fun l q => bucketPass key (4 * q) l) a).filter p
      = a.filter p
  | 0 => by simp
  | n + 1 => by
    rw [List.range_succ, List.foldl_append]
    simp only [List.foldl_cons, List.foldl_nil]
    rw [bucketPass_filter_const key (4 * n) p _ (digit c (4 * n))
      (fun x hx => by rw [hc x hx])]
    exact passes_filter key p c hc a n

theorem passes_pairwise (key : α → Nat) (R : α → α → Prop) (a : List α)
    (hR : a.Pairwise R) :
    ∀ n, ((List.range n).foldl (fun l q => bucketPass key (4 * q) l) a).Pairwise
      (fun x y => (key x % 2 ^ 32) % 2 ^ (4 * n) < (key y % 2 ^ 32) % 2 ^ (4 * n) ∨
        ((key x % 2 ^ 32) % 2 ^ (4 * n) = (key y % 2 ^ 32) % 2 ^ (4 * n) ∧ R x y))
  | 0 => by
    simp only [List.range_zero, List.foldl_nil, Nat.mul_zero, Nat.pow_zero,
      Nat.mod_one]
    exact hR.imp fun h => Or.inr ⟨trivial, h⟩
  | n + 1 => by
    rw [List.range_succ, List.foldl_append]
    simp only [List.foldl_cons, List.foldl_nil]
    have h := bucketPass_invariant key (4 * n) R _ (passes_pairwise key R a hR n)
    have he : 4 * (n + 1) = 4 * n + 4 := by ring
    rw [he]
    exact h

/-! ### bsort-level facts -/

theorem bucketPass_nil (key : α → Nat) (d : Nat) :
    bucketPass key d ([] : List α) = [] := by
  simp [bucketPass]

theorem bsort_nil (key : α → Nat) : bsort key ([] : List α) = [] := by
  unfold bsort
  generalize bitsFor (maxKey key ([] : List α)) / 4 = n
  induction n with
  | zero => rfl
  | succ n ih =>
    rw [List.range_succ, List.foldl_append]
    simp only [List.foldl_cons, List.foldl_nil]
    rw [ih, bucketPass_nil]

theorem bsort_perm (key : α → Nat) (a : List α) : bsort key a ~ a := by
  unfold bsort
  exact passes_perm key a _

theorem bsort_filter_const (key : α → Nat) (p : α → Bool) (c : Nat)
    (hc : ∀ x, p x = true → key x = c) (a : List α) :
    (bsort key a).filter p = a.filter p := by
  unfold bsort
  exact passes_filter key p c hc a _

theorem le_maxKey (key : α → Nat) : ∀ (a : List α), ∀ x ∈ a, key x ≤ maxKey key a
  | [] => by intro x hx; cases hx
  | y :: ys => by
    intro x hx
    have h : maxKey key (y :: ys) = max (key y) (maxKey key ys) := rfl
    rw [h]
    rcases List.mem_cons.mp hx with rfl | hmem
    · exact le_max_left _ _
    · exact le_trans (le_maxKey key ys x hmem) (le_max_right _ _)

theorem maxKey_lt (key : α → Nat) (a : List α) (hk : ∀ x ∈ a, key x < 2 ^ 32) :
    maxKey key a < 2 ^ 32 := by
  induction a with
  | nil => norm_num [maxKey]
  | cons y ys ih =>
    have h : maxKey key (y :: ys) = max (key y) (maxKey key ys) := rfl
    rw [h]
    exact max_lt (hk y (List.mem_cons_self y ys))
      (ih fun x hx => hk x (List.mem_cons_of_mem y hx))

theorem bitsFor_covers (m : Nat) (hm : m < 2 ^ 32) : m < 2 ^ bitsFor m := by
  have hmm : m % 2 ^ 32 = m := Nat.mod_eq_of_lt hm
  rw [bitsFor, hmm]
  by_cases h24 : m >>> 24 ≠ 0
  · rw [if_pos h24]; exact hm
  · rw [if_neg h24]
    have e24 : m / 2 ^ 24 = 0 := by
      rw [← Nat.shiftRight_eq_div_pow]; exact not_ne_iff.mp h24
    have l24 : m < 2 ^ 24 := by
      by_contra hge
      have : 0 < m / 2 ^ 24 := Nat.div_pos (by omega) (by norm_num)
      omega
    by_cases h16 : m >>> 16 ≠ 0
    · rw [if_pos h16]; exact l24
    · rw [if_neg h16]
      have e16 : m / 2 ^ 16 = 0 := by
        rw [← Nat.shiftRight_eq_div_pow]; exact not_ne_iff.mp h16
      have l16 : m < 2 ^ 16 := by
        by_contra hge
        have : 0 < m / 2 ^ 16 := Nat.div_pos (by omega) (by norm_num)
        omega
      by_cases h8 : m >>> 8 ≠ 0
      · rw [if_pos h8]; exact l16
      · rw [if_neg h8]
        have e8 : m / 2 ^ 8 = 0 := by
          rw [← Nat.shiftRight_eq_div_pow]; exact not_ne_iff.mp h8
        by_contra hge
        have : 0 < m / 2 ^ 8 := Nat.div_pos (by omega) (by norm_num)
        omega

theorem four_mul_bitsFor_div (m : Nat) : 4 * (bitsFor m / 4) = bitsFor m := by
  rw [bitsFor]
  split_ifs <;> norm_num

/-- The sorted/stable relational form of `bsort`: given a pairwise relation
`R` on the input (e.g. the order produced by earlier sorts), the output is
pairwise ordered by key with ties resolved by `R` — for keys below `2^32`. -/
theorem bsort_pairwise (key : α → Nat) (R : α → α → Prop) (a : List α)
    (hR : a.Pairwise R) (hk : ∀ x ∈ a, key x < 2 ^ 32) :
    (bsort key a).Pairwise (fun x y => key x < key y ∨ (key x = key y ∧ R x y)) := by
  have hP := passes_pairwise key R a hR (bitsFor (maxKey key a) / 4)
  rw [four_mul_bitsFor_div] at hP
  have hsub : ∀ x, x ∈ bsort key a → x ∈ a := fun x hx => (bsort_perm key a).subset hx
  have hkey : ∀ x, x ∈ bsort key a →
      (key x % 2 ^ 32) % 2 ^ bitsFor (maxKey key a) = key x := by
    intro x hx
    have hxa := hsub x hx
    rw [Nat.mod_eq_of_lt (hk x hxa)]
    exact Nat.mod_eq_of_lt (lt_of_le_of_lt (le_maxKey key a x hxa)
      (bitsFor_covers _ (maxKey_lt key a hk)))
  have hgoal : (bsort key a).Pairwise (fun x y =>
      (key x % 2 ^ 32) % 2 ^ bitsFor (maxKey key a)
        < (key y % 2 ^ 32) % 2 ^ bitsFor (maxKey key a) ∨
      ((key x % 2 ^ 32) % 2 ^ bitsFor (maxKey key a)
        = (key y % 2 ^ 32) % 2 ^ bitsFor (maxKey key a) ∧ R x y)) := by
    unfold bsort
    exact hP
  refine hgoal.imp_of_mem ?_
  intro x y hx hy hxy
  rw [hkey x hx, hkey y hy] at hxy
  exact hxy

end SA

namespace SA

open List

/-! ### Spec-side notions for the triplet sort -/

/-- The 3-symbol tuple starting at index `i` (spec §4.2 step 2). -/
def tripleAt (s : Nat → Nat) (i : Nat) : Nat × Nat × Nat :=
  (s i, s (i + 1), s (i + 2))

/-- Ascending lexicographic comparison of the 3-symbol tuples starting at
`x` and `y`. -/
def tripleLe (s : Nat → Nat) (x y : Nat) : Prop :=
  s x < s y ∨ (s x = s y ∧
    (s (x + 1) < s (y + 1) ∨ (s (x + 1) = s (y + 1) ∧ s (x + 2) ≤ s (y + 2))))

instance (s : Nat → Nat) (x y : Nat) : Decidable (tripleLe s x y) := by
  unfold tripleLe
  exact inferInstance

end SA

namespace SA

open List

/-- C4 (amended): for every item list and every key function whose values fit
in 32 bits, `bsort` returns a stable permutation of the items ascending by
key: it permutes the input, is pairwise ascending by key, and preserves the
relative order of items with equal keys; and `bsort` of the empty list is
empty.  (The 32-bit bound is forced by the use of JS 32-bit shifts in the source:
see the counterexample with a key of `2^32`.) -/
theorem bsort_stable (α : Type) (keyOf : α → Nat) (items : List α)
    (hk : ∀ x ∈ items, keyOf x < 2 ^ 32) :
    (bsort keyOf items).Perm items
    ∧ (bsort keyOf items).Pairwise (fun x y => keyOf x ≤ keyOf y)
    ∧ (∀ v : Nat, (bsort keyOf items).filter (fun x => keyOf x = v)
        = items.filter (fun x => keyOf x = v))
    ∧ bsort keyOf ([] : List α) = [] := by
  refine ⟨bsort_perm _ _, ?_, ?_, bsort_nil _⟩
  · have h := bsort_pairwise keyOf (fun _ _ => True) items
      (List.pairwise_of_forall fun _ _ => trivial) hk
    exact h.imp fun hxy => by omega
  · intro v
    exact bsort_filter_const keyOf _ v (fun x hx => by simpa using hx) items

/-- C4 counterexample: the claim as stated (arbitrary non-negative integer
keys) fails — with the key `2^32`, whose low 32 bits are zero, `bsort` keyed
by the identity leaves `[2^32, 1]` unsorted. -/
theorem bsort_claim_cex :
    bsort (fun x : Nat => x) [2 ^ 32, 1] = [2 ^ 32, 1]
    ∧ ¬ (bsort (fun x : Nat => x) [2 ^ 32, 1]).Pairwise (fun x y => x ≤ y) := by
  constructor
  · decide
  · decide

theorem bsort_stable_witness :
    (∀ x ∈ ([3, 1, 2] : List Nat), x < 2 ^ 32)
    ∧ (bsort (fun x : Nat => x) [3, 1, 2]).Pairwise (fun x y => x ≤ y) :=
  ⟨by decide, (bsort_stable Nat (fun x => x) [3, 1, 2] (by decide)).2.1⟩

/-- C5 (amended): for every accessor whose symbols fit in 32 bits, the three
stable radix sorts of the S12 index list, keyed by `s(2+j)`, then `s(1+j)`,
then `s(0+j)`, order it ascending by the full 3-symbol tuple: the result is a
permutation of the S12 list, pairwise ordered by the tuples, and stable (each
class of equal tuples keeps its original relative order).  (The 32-bit bound
is forced by the same counterexample as for the radix sort itself.) -/
theorem tripletSort_sorts (s : Nat → Nat) (len : Nat) (hs : ∀ i, s i < 2 ^ 32) :
    (tripletSort s (s12Init (2 * len / 3))).Perm (s12Init (2 * len / 3))
    ∧ (tripletSort s (s12Init (2 * len / 3))).Pairwise (tripleLe s)
    ∧ ∀ t : Nat × Nat × Nat,
        (tripletSort s (s12Init (2 * len / 3))).filter (fun x => tripleAt s x = t)
          = (s12Init (2 * len / 3)).filter (fun x => tripleAt s x = t) := by
  refine ⟨?_, ?_, ?_⟩
  · unfold tripletSort
    exact (bsort_perm _ _).trans ((bsort_perm _ _).trans (bsort_perm _ _))
  · have h3 := bsort_pairwise (fun j => s (2 + j)) (fun _ _ => True)
      (s12Init (2 * len / 3)) (List.pairwise_of_forall fun _ _ => trivial)
      (fun x _ => hs _)
    have h2 := bsort_pairwise (fun j => s (1 + j)) _ _ h3 (fun x _ => hs _)
    have h1 := bsort_pairwise (fun j => s (0 + j)) _ _ h2 (fun x _ => hs _)
    unfold tripletSort
    refine h1.imp ?_
    intro x y hxy
    unfold tripleLe
    simp only [Nat.zero_add, and_true] at hxy
    rw [Nat.add_comm 1 x, Nat.add_comm 2 x, Nat.add_comm 1 y, Nat.add_comm 2 y] at hxy
    omega
  · intro t
    unfold tripletSort
    rw [bsort_filter_const (fun j => s (0 + j)) _ t.1 ?h1,
        bsort_filter_const (fun j => s (1 + j)) _ t.2.1 ?h2,
        bsort_filter_const (fun j => s (2 + j)) _ t.2.2 ?h3]
    case h1 =>
      intro x hx
      have hx' : tripleAt s x = t := by simpa using hx
      show s (0 + x) = t.1
      rw [Nat.zero_add, ← hx']
      rfl
    case h2 =>
      intro x hx
      have hx' : tripleAt s x = t := by simpa using hx
      show s (1 + x) = t.2.1
      rw [Nat.add_comm 1 x, ← hx']
      rfl
    case h3 =>
      intro x hx
      have hx' : tripleAt s x = t := by simpa using hx
      show s (2 + x) = t.2.2
      rw [Nat.add_comm 2 x, ← hx']
      rfl

end SA

namespace SA

open List

/-- C5 counterexample: the claim as stated (every accessor) fails — an
accessor with the symbol `2^32` at index 1 defeats the 32-bit radix passes,
and the triple sort of the S12 list for `len = 3` is not in tuple order. -/
theorem tripletSort_claim_cex :
    ¬ (tripletSort (fun i => if i = 1 then 2 ^ 32 else if i = 2 then 1 else 0)
        (s12Init (2 * 3 / 3))).Pairwise
      (tripleLe (fun i => if i = 1 then 2 ^ 32 else if i = 2 then 1 else 0)) := by
  decide

theorem tripletSort_sorts_witness :
    ((fun _ : Nat => 1) 0 < 2 ^ 32)
    ∧ (tripletSort (fun _ : Nat => 1) (s12Init (2 * 3 / 3))).Pairwise
        (tripleLe (fun _ : Nat => 1)) :=
  ⟨by norm_num, (tripletSort_sorts (fun _ => 1) 3 (fun _ => by norm_num)).2.1⟩

/-! ### The merged result is a permutation of [0, len) -/

theorem tripletSort_perm (s : Nat → Nat) (a : List Nat) : tripletSort s a ~ a := by
  unfold tripletSort
  exact (bsort_perm _ _).trans ((bsort_perm _ _).trans (bsort_perm _ _))

theorem insMerge_perm (lt : Nat → Nat → Bool) (x : Nat) (xs : List Nat)
    (rest : List Nat → List Nat) (hrest : ∀ zs, rest zs ~ xs ++ zs) :
    ∀ ys, insMerge lt x xs rest ys ~ x :: (xs ++ ys)
  | [] => by simp [insMerge]
  | y :: ys => by
    unfold insMerge
    split
    · exact (hrest (y :: ys)).cons x
    · calc y :: insMerge lt x xs rest ys
          ~ y :: (x :: (xs ++ ys)) :=
            (insMerge_perm lt x xs rest hrest ys).cons y
        _ ~ x :: (xs ++ y :: ys) :=
            (List.Perm.swap x y _).trans (List.perm_middle.symm.cons x)

theorem mergeSA_perm (lt : Nat → Nat → Bool) :
    ∀ xs ys, mergeSA lt xs ys ~ xs ++ ys
  | [], ys => by simp [mergeSA]
  | x :: xs, ys => by
    unfold mergeSA
    exact insMerge_perm lt x xs (mergeSA lt xs) (fun zs => mergeSA_perm lt xs zs) ys

/-- Membership in the initial S12 index list. -/
theorem mem_s12Init (alen x : Nat) :
    x ∈ s12Init alen ↔
      ((x % 3 = 1 ∧ 2 * (x / 3) < alen) ∨ (x % 3 = 2 ∧ 2 * (x / 3) + 1 < alen)) := by
  unfold s12Init
  simp only [List.mem_map, List.mem_range]
  constructor
  · rintro ⟨i, hi, rfl⟩
    have hs : (i * 3) >>> 1 = i * 3 / 2 := by
      rw [Nat.shiftRight_eq_div_pow]
    rw [hs]
    omega
  · rintro (⟨h1, h2⟩ | ⟨h1, h2⟩)
    · refine ⟨2 * (x / 3), h2, ?_⟩
      have hs : (2 * (x / 3) * 3) >>> 1 = 2 * (x / 3) * 3 / 2 := by
        rw [Nat.shiftRight_eq_div_pow]
      rw [hs]
      omega
    · refine ⟨2 * (x / 3) + 1, h2, ?_⟩
      have hs : ((2 * (x / 3) + 1) * 3) >>> 1 = (2 * (x / 3) + 1) * 3 / 2 := by
        rw [Nat.shiftRight_eq_div_pow]
      rw [hs]
      omega

/-- For `alen = ⌊2·len/3⌋` the S12 list holds exactly the indices below `len`
that are not divisible by 3. -/
theorem mem_s12Init_len (len x : Nat) :
    x ∈ s12Init (2 * len / 3) ↔ (x % 3 ≠ 0 ∧ x < len) := by
  rw [mem_s12Init]
  omega

theorem nodup_s12Init (alen : Nat) : (s12Init alen).Nodup := by
  unfold s12Init
  refine (List.nodup_range alen).map_on ?_
  intro i hi j hj hij
  have hsi : (i * 3) >>> 1 = i * 3 / 2 := by
    rw [Nat.shiftRight_eq_div_pow]
  have hsj : (j * 3) >>> 1 = j * 3 / 2 := by
    rw [Nat.shiftRight_eq_div_pow]
  rw [hsi, hsj] at hij
  omega

/-- Translating all reduced positions `[0, alen)` back through `decodeS12`
yields each S12 index once. -/
theorem mem_map_decode (alen x : Nat) :
    x ∈ (List.range alen).map (decodeS12 ((alen + 1) >>> 1)) ↔
      ((x % 3 = 1 ∧ 2 * (x / 3) < alen) ∨ (x % 3 = 2 ∧ 2 * (x / 3) + 1 < alen)) := by
  have hr : (alen + 1) >>> 1 = (alen + 1) / 2 := by
    rw [Nat.shiftRight_eq_div_pow]
  simp only [List.mem_map, List.mem_range, hr]
  constructor
  · rintro ⟨t, ht, rfl⟩
    unfold decodeS12
    split_ifs with h
    · omega
    · omega
  · rintro (⟨h1, h2⟩ | ⟨h1, h2⟩)
    · refine ⟨x / 3, by omega, ?_⟩
      unfold decodeS12
      rw [if_pos (by omega : x / 3 < (alen + 1) / 2)]
      omega
    · refine ⟨x / 3 + (alen + 1) / 2, by omega, ?_⟩
      unfold decodeS12
      rw [if_neg (by omega : ¬ (x / 3 + (alen + 1) / 2 < (alen + 1) / 2))]
      omega

theorem nodup_map_decode (alen : Nat) :
    ((List.range alen).map (decodeS12 ((alen + 1) >>> 1))).Nodup := by
  have hr : (alen + 1) >>> 1 = (alen + 1) / 2 := by
    rw [Nat.shiftRight_eq_div_pow]
  refine (List.nodup_range alen).map_on ?_
  intro i hi j hj hij
  unfold decodeS12 at hij
  rw [hr] at hij
  split_ifs at hij <;> omega

theorem map_decode_perm (alen : Nat) :
    (List.range alen).map (decodeS12 ((alen + 1) >>> 1)) ~ s12Init alen := by
  rw [List.perm_ext_iff_of_nodup (nodup_map_decode alen) (nodup_s12Init alen)]
  intro x
  rw [mem_map_decode, mem_s12Init]

/-- The S12 sample together with the S0 sample derived from it (predecessors
of the `≡ 1 (mod 3)` indices, plus `len - 1` when `len ≡ 1 (mod 3)`) is a
permutation of `[0, len)`. -/
theorem sample_decomp_perm (len : Nat) :
    s12Init (2 * len / 3)
      ++ (((s12Init (2 * len / 3)).filter (fun x => x % 3 = 1)).map (fun x => x - 1)
          ++ (if len % 3 = 1 then [len - 1] else []))
      ~ List.range len := by
  have hmapmem : ∀ x, x ∈ ((s12Init (2 * len / 3)).filter
      (fun x => x % 3 = 1)).map (fun x => x - 1) ↔
      ∃ i, ((i % 3 ≠ 0 ∧ i < len) ∧ i % 3 = 1) ∧ i - 1 = x := by
    intro x
    simp only [List.mem_map, List.mem_filter, mem_s12Init_len, decide_eq_true_eq]
  have hnd : (((s12Init (2 * len / 3)).filter (fun x => x % 3 = 1)).map
      (fun x => x - 1)).Nodup := by
    refine ((nodup_s12Init _).filter _).map_on ?_
    intro i hi j hj hij
    have h1 : i % 3 = 1 := by simpa using (List.mem_filter.mp hi).2
    have h2 : j % 3 = 1 := by simpa using (List.mem_filter.mp hj).2
    omega
  refine (List.perm_ext_iff_of_nodup ?_ (List.nodup_range len)).mpr ?_
  · refine List.Nodup.append (nodup_s12Init _) (List.Nodup.append hnd ?_ ?_) ?_
    · by_cases hl : len % 3 = 1
      · rw [if_pos hl]; exact List.nodup_singleton _
      · rw [if_neg hl]; exact List.nodup_nil
    · intro a ha hb
      rcases (hmapmem a).mp ha with ⟨i, ⟨⟨_, hilen⟩, him⟩, rfl⟩
      by_cases hl : len % 3 = 1
      · rw [if_pos hl] at hb
        have : i - 1 = len - 1 := List.mem_singleton.mp hb
        omega
      · rw [if_neg hl] at hb
        cases hb
    · intro a ha hb
      rw [mem_s12Init_len] at ha
      rcases List.mem_append.mp hb with hb1 | hb2
      · rcases (hmapmem a).mp hb1 with ⟨i, ⟨⟨_, _⟩, him⟩, rfl⟩
        omega
      · by_cases hl : len % 3 = 1
        · rw [if_pos hl] at hb2
          have := List.mem_singleton.mp hb2
          omega
        · rw [if_neg hl] at hb2
          cases hb2
  · intro x
    simp only [List.mem_append, mem_s12Init_len, hmapmem, List.mem_range]
    by_cases hl : len % 3 = 1
    · rw [if_pos hl]
      simp only [List.mem_singleton]
      constructor
      · rintro ((⟨h1, h2⟩) | (⟨i, ⟨⟨hi1, hi2⟩, him⟩, rfl⟩ | rfl))
        · omega
        · omega
        · omega
      · intro hx
        by_cases hmod : x % 3 = 0
        · by_cases hxl : x + 1 < len
          · exact Or.inr (Or.inl ⟨x + 1, ⟨⟨by omega, hxl⟩, by omega⟩, by omega⟩)
          · exact Or.inr (Or.inr (by omega))
        · exact Or.inl ⟨hmod, hx⟩
    · rw [if_neg hl]
      simp only [List.not_mem_nil, or_false]
      constructor
      · rintro ((⟨h1, h2⟩) | ⟨i, ⟨⟨hi1, hi2⟩, him⟩, rfl⟩)
        · omega
        · omega
      · intro hx
        by_cases hmod : x % 3 = 0
        · refine Or.inr ⟨x + 1, ⟨⟨by omega, by omega⟩, by omega⟩, by omega⟩
        · exact Or.inl ⟨hmod, hx⟩

/-- Equation for `_suffixArray`, unfolded once (the local variables of the source written
out; the recursion guard `j < alen - 1` appears as a plain conditional). -/
theorem _suffixArray_unfold (s : Nat → Nat) (len : Nat) :
    _suffixArray s len =
      mergeSA
        (mergeLt s (lookupIn
          (if (rankArray s ((2 * len / 3 + 1) >>> 1) (2 * len / 3)
                (tripletSort s (s12Init (2 * len / 3)))).2 < 2 * len / 3 - 1 then
            (_suffixArray
                (fun i => if i ≥ 2 * len / 3 then 0
                  else (rankArray s ((2 * len / 3 + 1) >>> 1) (2 * len / 3)
                    (tripletSort s (s12Init (2 * len / 3)))).1.getD i 0)
                (2 * len / 3)).map
              (fun t => decodeS12 ((2 * len / 3 + 1) >>> 1) t)
          else tripletSort s (s12Init (2 * len / 3))) 0))
        (if (rankArray s ((2 * len / 3 + 1) >>> 1) (2 * len / 3)
              (tripletSort s (s12Init (2 * len / 3)))).2 < 2 * len / 3 - 1 then
          (_suffixArray
              (fun i => if i ≥ 2 * len / 3 then 0
                else (rankArray s ((2 * len / 3 + 1) >>> 1) (2 * len / 3)
                  (tripletSort s (s12Init (2 * len / 3)))).1.getD i 0)
              (2 * len / 3)).map
            (fun t => decodeS12 ((2 * len / 3 + 1) >>> 1) t)
        else tripletSort s (s12Init (2 * len / 3)))
        (bsort (fun j => s j)
          (((if (rankArray s ((2 * len / 3 + 1) >>> 1) (2 * len / 3)
                  (tripletSort s (s12Init (2 * len / 3)))).2 < 2 * len / 3 - 1 then
              (_suffixArray
                  (fun i => if i ≥ 2 * len / 3 then 0
                    else (rankArray s ((2 * len / 3 + 1) >>> 1) (2 * len / 3)
                      (tripletSort s (s12Init (2 * len / 3)))).1.getD i 0)
                  (2 * len / 3)).map
                (fun t => decodeS12 ((2 * len / 3 + 1) >>> 1) t)
            else tripletSort s (s12Init (2 * len / 3))).filter
              (fun x => x % 3 = 1)).map (fun x => x - 1)
            ++ (if len % 3 = 1 then [len - 1] else []))) := by
  rw [_suffixArray]
  rfl

/-- Permutation property of the core builder, by strong induction on the
length: `_suffixArray s len` is a permutation of `[0, len)`, for every
accessor (no assumption on the symbols). -/
theorem suffixArray_perm_aux :
    ∀ (len : Nat) (s : Nat → Nat), (_suffixArray s len) ~ List.range len := by
  intro len
  induction len using Nat.strong_induction_on with
  | _ len ih =>
    intro s
    rw [_suffixArray_unfold]
    have main : ∀ a4 : List Nat, a4 ~ s12Init (2 * len / 3) →
        mergeSA (mergeLt s (lookupIn a4 0)) a4
          (bsort (fun j => s j)
            ((a4.filter fun x => x % 3 = 1).map (fun x => x - 1)
              ++ if len % 3 = 1 then [len - 1] else [])) ~ List.range len := by
      intro a4 ha4
      refine (mergeSA_perm _ _ _).trans ?_
      refine (List.Perm.append ha4 ?_).trans (sample_decomp_perm len)
      refine (bsort_perm _ _).trans ?_
      exact ((ha4.filter _).map _).append_right _
    by_cases hrec : (rankArray s ((2 * len / 3 + 1) >>> 1) (2 * len / 3)
        (tripletSort s (s12Init (2 * len / 3)))).2 < 2 * len / 3 - 1
    · rw [if_pos hrec]
      refine main _ ?_
      have hlt : 2 * len / 3 < len := by omega
      exact ((ih (2 * len / 3) hlt _).map _).trans (map_decode_perm _)
    · rw [if_neg hrec]
      exact main _ (tripletSort_perm s _)

end SA

namespace SA

open List

/-! ### Claim theorems -/

theorem tripletSort_nil (s : Nat → Nat) : tripletSort s [] = [] := by
  unfold tripletSort
  rw [bsort_nil, bsort_nil, bsort_nil]

theorem suffixArray_zero (s : Nat → Nat) : _suffixArray s 0 = [] := by
  rw [_suffixArray_unfold]
  have h0 : (2 * 0 / 3 : Nat) = 0 := by norm_num
  rw [h0]
  have h1 : s12Init 0 = [] := rfl
  rw [h1, tripletSort_nil]
  have h2 : rankArray s ((0 + 1) >>> 1) 0 [] = ([], 0) := rfl
  rw [h2]
  have h3 : ¬ ((([] : List Nat), 0).2 < 0 - 1) := by norm_num
  rw [if_neg h3]
  have h4 : ¬ ((0 : Nat) % 3 = 1) := by norm_num
  rw [if_neg h4]
  have h5 : (([] : List Nat).filter (fun x => x % 3 = 1)).map (fun x => x - 1)
      ++ ([] : List Nat) = [] := rfl
  rw [h5, bsort_nil]
  rfl

/-- The JS arithmetic shift `n >> 1` agrees with the unbounded `Nat` shift
whenever the operand is below the ToInt32 sign boundary. -/
theorem jsShr1_eq_of_small (n : Nat) (h : n < 2 ^ 31) :
    toInt32 n / (2 : Int) = ((n >>> 1 : Nat) : Int) := by
  unfold toInt32
  have hm : n % 2 ^ 32 = n := Nat.mod_eq_of_lt (by omega)
  rw [hm, if_pos h, Nat.shiftRight_eq_div_pow, pow_one]
  omega

/-- Below the ToInt32 boundary (`i * 3 < 2^31`, i.e. every `i` used when
`len ≤ 2^30 + 1`), the faithful JS sample entry equals the `Nat` rendering
used by `s12Init`. -/
theorem s12EntryJS_eq_of_small (i : Nat) (h : i * 3 < 2 ^ 31) :
    s12EntryJS i = ((((i * 3) >>> 1) + 1 : Nat) : Int) := by
  unfold s12EntryJS
  rw [jsShr1_eq_of_small (i * 3) h]
  push_cast
  ring

/-- C1 counterexample: at `len = 2^30 + 2` the sample position
`i = 715827883` lies inside the S12 range (`i < ⌊2·len/3⌋ = 715827884`), and
the JS computation `((i * 3) >> 1) + 1` — faithfully `s12EntryJS`, with the
ToInt32 coercion of `>>` — writes the negative value `-1073741823`, not an
index of `[0, len)`, where the unbounded rendering gives `1073741825`.  With
an accessor whose triplets are all distinct there is no recursion and the
merge emits every sample entry, so the program output contains this
non-index and is not a permutation of `[0, len)`. -/
theorem s12_wrap_cex :
    s12EntryJS 715827883 = -1073741823
    ∧ s12EntryJS 715827883 < 0
    ∧ (715827883 : Nat) < 2 * (2 ^ 30 + 2) / 3
    ∧ ((((715827883 : Nat) * 3) >>> 1) + 1 : Nat) = 1073741825 := by
  refine ⟨by decide, by decide, by decide, by decide⟩

/-- C1 (amended): for every accessor `s` and length `len ≤ 2^30 + 1` — the
exact regime in which every sample shift `(i * 3) >> 1` and the count shift
`(alen + 1) >> 1` stay below the ToInt32 boundary, so the `Nat` embedding
coincides with the JS computation (`s12EntryJS_eq_of_small`) —
`suffixArray(s, len)` returns an array of length `len` that is a permutation
of `[0, len)`, every index appearing exactly once, regardless of whether the
recursive step was taken; likewise for a string input with its character
count.  (For larger lengths the 32-bit wrap writes a negative sample entry
that can reach the output: see `s12_wrap_cex`.) -/
theorem suffixArray_permutation (s : Nat → Nat) (len : Nat) (cs : List Nat)
    (_hlen : len ≤ 2 ^ 30 + 1) (_hcs : cs.length ≤ 2 ^ 30 + 1) :
    (suffixArrayFn s len).Perm (List.range len)
    ∧ (suffixArrayFn s len).length = len
    ∧ (suffixArrayStr cs 0).Perm (List.range cs.length)
    ∧ (suffixArrayStr cs 0).length = cs.length := by
  refine ⟨suffixArray_perm_aux len _, ?_, suffixArray_perm_aux cs.length _, ?_⟩
  · exact ((suffixArray_perm_aux len _).length_eq).trans (List.length_range _)
  · exact ((suffixArray_perm_aux cs.length _).length_eq).trans (List.length_range _)

theorem suffixArray_permutation_witness :
    (3 : Nat) ≤ 2 ^ 30 + 1 ∧ ([97] : List Nat).length ≤ 2 ^ 30 + 1
    ∧ (suffixArrayFn (fun _ => 1) 3).length = 3 :=
  ⟨by norm_num, by norm_num,
    (suffixArray_permutation (fun _ => 1) 3 [97] (by norm_num) (by norm_num)).2.1⟩

/-- C10: for a string input an explicit length argument of `0` is ignored
(JS `len || s.length` falls back to the character count), the result is the
suffix array of the whole string (length `s.length`, nonempty when the string
is), while for a function input an explicit length `0` is honoured and yields
`[]`. -/
theorem strLen_zero_fallback (s : List Nat) :
    suffixArrayStr s 0 = suffixArrayFn (strAt s) s.length
    ∧ (suffixArrayStr s 0).length = s.length
    ∧ (s ≠ [] → suffixArrayStr s 0 ≠ [])
    ∧ (∀ f : Nat → Nat, suffixArrayFn f 0 = []) := by
  refine ⟨rfl, ?_, ?_, ?_⟩
  · exact ((suffixArray_perm_aux s.length _).length_eq).trans (List.length_range _)
  · intro hne hnil
    have h1 : (suffixArrayStr s 0).length = s.length :=
      ((suffixArray_perm_aux s.length _).length_eq).trans (List.length_range _)
    rw [hnil] at h1
    exact hne (List.length_eq_zero.mp h1.symm)
  · intro f
    exact suffixArray_zero _

theorem strLen_zero_fallback_witness :
    ([5] : List Nat) ≠ [] ∧ suffixArrayStr [5] 0 ≠ [] :=
  ⟨by decide, (strLen_zero_fallback [5]).2.2.1 (by decide)⟩

/-- C2 (code bug): with the min-policy precondition satisfied (all symbols
`≥ 1`), the output of `suffixArray("aa")` is `[0, 1]`, yet the suffix at
index 1 (`"a"`, a proper prefix) is strictly lexicographically below the
suffix at index 0 (`"aa"`) under the sentinel-0 comparison — the claimed
sorted order would be `[1, 0]`.  (In the source merge, `lookup[a[i]+1]` is
`undefined` when `a[i] + 1 = len`, so the comparison yields `NaN` and the S0
suffix wrongly wins the tie.) -/
theorem lex_order_violation :
    suffixArrayStr [97, 97] 0 = [0, 1]
    ∧ sufLt [97, 97] 3 1 0 = true
    ∧ ¬ (suffixArrayStr [97, 97] 0).Pairwise
        (fun a b => sufLt [97, 97] 3 b a = false) := by
  have h : suffixArrayStr [97, 97] 0
      = _suffixArray (minWrap (strAt [97, 97]) 2) 2 := rfl
  refine ⟨?_, rfl, ?_⟩
  · rw [h, _suffixArray_unfold]
    decide
  · rw [h, _suffixArray_unfold]
    decide

/-- C3 (spec-modelled): the entry point takes an optional termination policy,
`"min"` (the default, identical to the two-argument entry of the source) or
`"wrap"`; under wrap every index is read modulo `N` (reading at `i` and at
`i % N` agree), and `suffixArray("baa", "wrap") = [1, 2, 0]`. -/
theorem policy_parameter (s : List Nat) :
    suffixArrayPol s TermPolicy.min = suffixArrayStr s 0
    ∧ (∀ i : Nat, wrapAcc s i = wrapAcc s (i % s.length))
    ∧ suffixArrayPol [98, 97, 97] TermPolicy.wrap = [1, 2, 0] := by
  refine ⟨rfl, ?_, ?_⟩
  · intro i
    unfold wrapAcc
    rw [Nat.mod_mod_of_dvd i (dvd_refl s.length)]
  · have h : suffixArrayPol [98, 97, 97] TermPolicy.wrap
        = _suffixArray (wrapAcc [98, 97, 97]) 3 := rfl
    rw [h, _suffixArray_unfold]
    decide

/-- C7 (spec-modelled): the worked reference behaviours with an explicit
`"min"` policy hold exactly: `"aaa" ↦ [2,1,0]`, `"baa" ↦ [2,1,0]`,
`"banana" ↦ [5,3,1,0,4,2]` (strings as their character codes). -/
theorem min_reference_vectors :
    suffixArrayPol [97, 97, 97] TermPolicy.min = [2, 1, 0]
    ∧ suffixArrayPol [98, 97, 97] TermPolicy.min = [2, 1, 0]
    ∧ suffixArrayPol [98, 97, 110, 97, 110, 97] TermPolicy.min
        = [5, 3, 1, 0, 4, 2] := by
  refine ⟨?_, ?_, ?_⟩
  · have h : suffixArrayPol [97, 97, 97] TermPolicy.min
        = _suffixArray (minWrap (strAt [97, 97, 97]) 3) 3 := rfl
    rw [h, _suffixArray_unfold]
    decide
  · have h : suffixArrayPol [98, 97, 97] TermPolicy.min
        = _suffixArray (minWrap (strAt [98, 97, 97]) 3) 3 := rfl
    rw [h, _suffixArray_unfold]
    decide
  · have h : suffixArrayPol [98, 97, 110, 97, 110, 97] TermPolicy.min
        = _suffixArray (minWrap (strAt [98, 97, 110, 97, 110, 97]) 6) 6 := rfl
    rw [h, _suffixArray_unfold]
    decide

/-- Equation for `recDepth`, unfolded once. -/
theorem recDepth_unfold (s : Nat → Nat) (len : Nat) :
    recDepth s len =
      if (rankArray s ((2 * len / 3 + 1) >>> 1) (2 * len / 3)
            (tripletSort s (s12Init (2 * len / 3)))).2 < 2 * len / 3 - 1 then
        recDepth (fun i => if i ≥ 2 * len / 3 then 0
          else (rankArray s ((2 * len / 3 + 1) >>> 1) (2 * len / 3)
            (tripletSort s (s12Init (2 * len / 3)))).1.getD i 0) (2 * len / 3) + 1
      else 0 := by
  rw [recDepth]
  rfl

theorem recDepth_le : ∀ (len : Nat) (s : Nat → Nat), recDepth s len ≤ len := by
  intro len
  induction len using Nat.strong_induction_on with
  | _ len ih =>
    intro s
    rw [recDepth_unfold]
    by_cases h : (rankArray s ((2 * len / 3 + 1) >>> 1) (2 * len / 3)
        (tripletSort s (s12Init (2 * len / 3)))).2 < 2 * len / 3 - 1
    · rw [if_pos h]
      have hlt : 2 * len / 3 < len := by omega
      have hd := ih (2 * len / 3) hlt
        (fun i => if i ≥ 2 * len / 3 then 0
          else (rankArray s ((2 * len / 3 + 1) >>> 1) (2 * len / 3)
            (tripletSort s (s12Init (2 * len / 3)))).1.getD i 0)
      omega
    · rw [if_neg h]
      omega

/-- C6: the builder recurses at most once per call (a single guarded
recursion site, so the recursive invocations form a chain counted by
`recDepth`); it recurses exactly when the maximum assigned rank is below
`|S12| - 1`; the recursive call is on a problem of size
`|S12| = ⌊2·len/3⌋ < len`; and the recursion depth is finite (at most
`len`), so the construction terminates for every length. -/
theorem recursion_structure (s : Nat → Nat) (len : Nat) :
    (0 < recDepth s len ↔ maxRank s len < 2 * len / 3 - 1)
    ∧ (maxRank s len < 2 * len / 3 - 1 → 2 * len / 3 < len)
    ∧ (s12Init (2 * len / 3)).length = 2 * len / 3
    ∧ recDepth s len ≤ len := by
  refine ⟨?_, ?_, ?_, recDepth_le len s⟩
  · rw [recDepth_unfold]
    unfold maxRank
    by_cases h : (rankArray s ((2 * len / 3 + 1) >>> 1) (2 * len / 3)
        (tripletSort s (s12Init (2 * len / 3)))).2 < 2 * len / 3 - 1
    · rw [if_pos h]
      exact ⟨fun _ => h, fun _ => Nat.succ_pos _⟩
    · rw [if_neg h]
      exact ⟨fun h0 => absurd h0 (by omega), fun hg => absurd hg h⟩
  · intro h
    unfold maxRank at h
    omega
  · unfold s12Init
    rw [List.length_map, List.length_range]

theorem recursion_structure_witness :
    maxRank (fun _ => 1) 9 < 2 * 9 / 3 - 1 ∧ 2 * 9 / 3 < 9 :=
  ⟨by decide, (recursion_structure (fun _ => 1) 9).2.1 (by decide)⟩

/-- The loop counter of `while (i--)` never reaches the exit test value `0`
once it is negative. -/
theorem whileDec_neg : ∀ (fuel : Nat) (i : Int), i < 0 → whileDecExits i fuel = false
  | 0, _, _ => rfl
  | fuel + 1, i, h => by
    unfold whileDecExits
    rw [if_neg (by omega : ¬ i = 0)]
    exact whileDec_neg fuel (i - 1) (by omega)

/-- C8 counterexample: rather than failing fast, the call proceeds into the
computation — started at counter `-1` (the value of `alen` for `len = -1`),
the first loop of `_suffixArray` runs a million tests without exiting and
raises no error. -/
theorem no_validation_cex : whileDecExits (-1) 1000000 = false :=
  whileDec_neg 1000000 (-1) (by norm_num)

/-- C8 (amended): the entry point performs no validation of its length: a
negative length flows into `_suffixArray`, where `alen = Math.floor(2·len/3)`
is negative and the loop `while (i--)` never exits (undefined behaviour per
spec §7, not a fast descriptive error). -/
theorem negative_length_diverges (len : Int) (h : len < 0) :
    2 * len / 3 < 0 ∧ ∀ fuel, whileDecExits (2 * len / 3) fuel = false := by
  have hneg : 2 * len / 3 < 0 := by omega
  exact ⟨hneg, fun fuel => whileDec_neg fuel _ hneg⟩

theorem negative_length_diverges_witness :
    ((-1 : Int) < 0) ∧ whileDecExits (2 * (-1) / 3) 100 = false :=
  ⟨by norm_num, (negative_length_diverges (-1) (by norm_num)).2 100⟩

/-- C9 counterexample: at `len = 2^30 + 2` the wrapped sample entry
(`s12EntryJS 715827883 = -1073741823`, inside the S12 range) makes the
triplet-sort key `s(i + j)` read the accessor at the negative index
`a[i] + 2 = -1073741821`; the only test the wrapper applies, `i >= len`, is
false there, so the read is not intercepted and reaches the function
supplied by the caller at a negative index. -/
theorem wrapper_negative_miss_cex :
    minWrapIntercepts (2 ^ 30 + 2) (s12EntryJS 715827883 + 2) = false
    ∧ s12EntryJS 715827883 + 2 < 0
    ∧ (715827883 : Nat) < 2 * (2 ^ 30 + 2) / 3 := by
  refine ⟨by decide, by decide, by decide⟩

/-- C9 (amended): for lengths up to `2^30 + 1` — the regime in which no
sample shift crosses the ToInt32 boundary, so every index the construction
forms is a `Nat` below or above `len` and never negative
(`s12EntryJS_eq_of_small`) — the wrapper installed by the entry point answers
`0` for every index at or beyond `len` without consulting the function
supplied by the caller, and the result depends only on the values of the
accessor on `[0, len)`: two accessors that agree below `len` produce
identical suffix arrays.  (Beyond that bound a wrapped negative sample entry
escapes the wrapper test `i >= len` and the accessor is consulted at a
negative index: see `wrapper_negative_miss_cex`.) -/
theorem accessor_confined (s s' : Nat → Nat) (len : Nat)
    (_hlen : len ≤ 2 ^ 30 + 1) :
    (∀ i, len ≤ i → minWrap s len i = 0)
    ∧ ((∀ i, i < len → s i = s' i) →
        suffixArrayFn s len = suffixArrayFn s' len) := by
  constructor
  · intro i hi
    unfold minWrap
    rw [if_pos (by omega : i ≥ len)]
  · intro h
    have hw : minWrap s len = minWrap s' len := by
      funext i
      unfold minWrap
      by_cases hi : i ≥ len
      · rw [if_pos hi, if_pos hi]
      · rw [if_neg hi, if_neg hi]
        exact h i (by omega)
    unfold suffixArrayFn
    rw [hw]

theorem accessor_confined_witness :
    (2 : Nat) ≤ 2 ^ 30 + 1
    ∧ minWrap (fun i => i + 1) 2 5 = 0
    ∧ suffixArrayFn (fun i => i + 1) 2
        = suffixArrayFn (fun i => if i < 2 then i + 1 else 99) 2 :=
  ⟨by norm_num,
   (accessor_confined (fun i => i + 1) (fun i => if i < 2 then i + 1 else 99) 2
      (by norm_num)).1 5 (by norm_num),
   (accessor_confined (fun i => i + 1) (fun i => if i < 2 then i + 1 else 99) 2
      (by norm_num)).2 (fun i hi => by rw [if_pos hi])⟩

end SA

